import Mathlib

/-!
Shallow embedding of the rotor activation-checkpoint solver
(`colossalai/fx/passes/algorithms/ckpt_solver_rotor.py`: `_compute_table`,
`_rec`, `_discretize` and the arithmetic prelude of `solver_rotor`), and of
the variable-binding behaviour of the `torch.var_mean` branch of
`colossalai/auto_parallel/solver/strategies_constructor.py`.

Conventions of the embedding:
* Python `float("inf")` table entries become `⊤ : ℕ∞`; all finite costs and
  sizes in the solver are non-negative integers, so `ℕ∞` is exact.
* The dynamic-programming table `opt[m][i][j]` of `_compute_table` is a pure
  function of the cell coordinates (each cell only reads cells of strictly
  smaller memory or strictly smaller range width, and the table is filled in
  that order), so it is embedded as a recursive cell function `opt c m i j`
  driven by a structural fuel, together with a fuel-irrelevance lemma.
* Python raising `ValueError` / `ZeroDivisionError` is embedded as `Except`.
-/

/-- Decidable equality for `Except`, so that concrete runs of the embedded
fallible functions can be checked by `decide`. -/
instance {ε α : Type} [DecidableEq ε] [DecidableEq α] : DecidableEq (Except ε α) :=
  fun x y =>
    match x, y with
    | .error a, .error b =>
      decidable_of_iff (a = b) ⟨fun h => by rw [h], fun h => by injection h⟩
    | .ok a, .ok b =>
      decidable_of_iff (a = b) ⟨fun h => by rw [h], fun h => by injection h⟩
    | .error _, .ok _ => isFalse (fun h => Except.noConfusion h)
    | .ok _, .error _ => isFalse (fun h => Except.noConfusion h)

namespace RotorCkpt

/-- Modelled from the spec: the `Chain` container (class `Chain` is defined in
`colossalai/fx/passes/algorithms/utils.py`, which is outside the given
sources).  Per the spec data model it is an immutable record of per-stage cost
and size lists; `length` is the number of stages, the length of the
forward-time list. -/
structure Chain where
  fweight : List ℕ
  bweight : List ℕ
  cweight : List ℕ
  cbweight : List ℕ
  fwd_tmp : List ℕ
  bwd_tmp : List ℕ
deriving DecidableEq

/-- Number of stages of the chain (stage indices `0..length-1`, terminal loss
point at index `length`). -/
def Chain.length (c : Chain) : ℕ := c.fweight.length

/-- The padded forward-time array `fw = chain.fweight + [0]` of
`_compute_table`, as a total accessor: reading the appended terminal slot and
reading past the end both give `0`, so `getD _ 0` models the padded list at
every index it is read at. -/
def fwA (c : Chain) (i : ℕ) : ℕ := c.fweight.getD i 0

/-- The backward-time array `bw = chain.bweight` (not padded in the source),
as a total accessor. -/
def bwA (c : Chain) (i : ℕ) : ℕ := c.bweight.getD i 0

/-- The padded activation-size array `cw = chain.cweight + [0]`. -/
def cwA (c : Chain) (i : ℕ) : ℕ := c.cweight.getD i 0

/-- The padded xbar-size array `cbw = chain.cbweight + [0]`. -/
def cbwA (c : Chain) (i : ℕ) : ℕ := c.cbweight.getD i 0

/-- The padded forward temporary-memory array `fwd_tmp = chain.fwd_tmp + [0]`. -/
def fwdTmpA (c : Chain) (i : ℕ) : ℕ := c.fwd_tmp.getD i 0

/-- The padded backward temporary-memory array `bwd_tmp = chain.bwd_tmp + [0]`. -/
def bwdTmpA (c : Chain) (i : ℕ) : ℕ := c.bwd_tmp.getD i 0

/-- The base-case feasibility limit of `_compute_table`:
`max(cw[i+1] + cbw[i+1] + fwd_tmp[i], cw[i+1] + cbw[i+1] + bwd_tmp[i])`. -/
def limitD (c : Chain) (i : ℕ) : ℕ :=
  max (cwA c (i + 1) + cbwA c (i + 1) + fwdTmpA c i)
    (cwA c (i + 1) + cbwA c (i + 1) + bwdTmpA c i)

/-- `max(cw[k] + cw[k+1] + fwd_tmp[k] for k in range(i+1, idx))`, the interior
maximum of the feasibility floor of `_compute_table` (Python `max` of a
non-empty generator; it is only evaluated when `idx > i + 1`, and all values
are non-negative, so a `0`-seeded fold is exact there). -/
def interiorMax (c : Chain) (i idx : ℕ) : ℕ :=
  ((List.range' (i + 1) (idx - (i + 1))).map
    (fun k => cwA c k + cwA c (k + 1) + fwdTmpA c k)).foldl max 0

/-- The feasibility floor `mmin` of `_compute_table` for a cell with
`idx - i ≥ 1`:
`mmin = cw[idx+1] + cw[i+1] + fwd_tmp[i]`, and when `idx > i + 1` also
`mmin = max(mmin, cw[idx+1] + max(cw[k] + cw[k+1] + fwd_tmp[k] for k in (i, idx)))`. -/
def mminD (c : Chain) (i idx : ℕ) : ℕ :=
  if i + 1 < idx then
    max (cwA c (idx + 1) + cwA c (i + 1) + fwdTmpA c i)
      (cwA c (idx + 1) + interiorMax c i idx)
  else cwA c (idx + 1) + cwA c (i + 1) + fwdTmpA c i

/-- `sum(fw[i:j])` of `_compute_table`: the sum of the padded forward times of
stages `i..j-1`. -/
def sumFw (c : Chain) (i j : ℕ) : ℕ := ((List.range' i (j - i)).map (fwA c)).sum

/-- The decision recorded in `what[m][i][j]`: `(True,)` (chain checkpoint) or
`(False, k)` (leaf checkpoint with boundary `k`). -/
inductive What where
  | chain : What
  | leaf (k : ℕ) : What
deriving DecidableEq

/-- One step of Python `min` with `key=lambda t: t[1]`: keep the earlier
element `p` unless the candidate from the rest is strictly smaller. -/
def blCombine (p : ℕ × ℕ∞) : Option (ℕ × ℕ∞) → Option (ℕ × ℕ∞)
  | none => some p
  | some q => if q.2 < p.2 then some q else some p

/-- Python `min(leaf_checkpoints, key=lambda t: t[1])` for a possibly empty
list: returns the first pair of minimal second component (Python `min` keeps
the earliest element on ties), or `none` for the empty list. -/
def bestLeaf : List (ℕ × ℕ∞) → Option (ℕ × ℕ∞)
  | [] => none
  | p :: ps => blCombine p (bestLeaf ps)

/-- The value of `bestLeaf`, with `⊤` for the empty list. -/
def blVal (l : List (ℕ × ℕ∞)) : ℕ∞ :=
  match bestLeaf l with
  | none => ⊤
  | some q => q.2

/-- The `leaf_checkpoints` list of `_compute_table`, parameterised by the
cell evaluator `o` reading sub-cells: pairs
`(k, sum(fw[i:k]) + opt[m - cw[k]][k][j] + opt[m][i][k-1])` for
`k in range(i+1, j+1)` with `m >= cw[k]` (the comprehension of source line
58-60, with `o` standing for the already-filled table reads). -/
def leafListWith (o : ℕ → ℕ → ℕ → ℕ∞) (c : Chain) (m i j : ℕ) : List (ℕ × ℕ∞) :=
  ((List.range' (i + 1) (j - i)).filter (fun k => cwA c k ≤ m)).map
    (fun k => (k, ((sumFw c i k : ℕ) : ℕ∞) +
      o (m - cwA c k) k j + o m i (k - 1)))

/-- The `chain_checkpoint` value of `_compute_table`:
`opt[m][i][i] + opt[m - cbw[i+1]][i+1][j]` when `m >= cbw[i+1]`, else `∞`
(source lines 65-68), parameterised by the cell evaluator `o`. -/
def chainValWith (o : ℕ → ℕ → ℕ → ℕ∞) (c : Chain) (m i j : ℕ) : ℕ∞ :=
  if cbwA c (i + 1) ≤ m then
    o m i i + o (m - cbwA c (i + 1)) (i + 1) j
  else ⊤

/-- The `(opt[m][i][idx], what[m][i][idx])` pair a feasible recurrence cell is
assigned (source lines 58-74): build `leaf_checkpoints`, take
`best_leaf = min(..., key=lambda t: t[1])`, compare with `chain_checkpoint`;
`best_leaf and best_leaf[1] <= chain_checkpoint` records the leaf decision
(ties favour the leaf), otherwise the chain decision is recorded. -/
def cellWith (o : ℕ → ℕ → ℕ → ℕ∞) (c : Chain) (m i j : ℕ) : ℕ∞ × Option What :=
  match bestLeaf (leafListWith o c m i j) with
  | some kv =>
    if kv.2 ≤ chainValWith o c m i j then (kv.2, some (What.leaf kv.1))
    else (chainValWith o c m i j, some What.chain)
  | none => (chainValWith o c m i j, some What.chain)

/-- Fuelled cell evaluator for the pair of tables `(opt, what)` built by
`_compute_table`.  The branch structure follows the source exactly:
the `lmax - lmin = 0` initialisation (Equation (1), lines 37-44) for `j ≤ i`;
the feasibility floor `mmin` (lines 52-56); and the feasible recurrence cell
(lines 58-74) via `cellWith`.  Each recursive cell read has strictly smaller
`m + (j - i)`, so fuel `m + (j - i) + 1` always suffices; the fuel-0 value is
never reached then. -/
def tblF (c : Chain) : ℕ → ℕ → ℕ → ℕ → ℕ∞ × Option What
  | 0, _, _, _ => (0, none)
  | f + 1, m, i, j =>
    if j ≤ i then
      (if limitD c i ≤ m then ((fwA c i + bwA c i : ℕ) : ℕ∞) else ⊤, none)
    else if m < mminD c i j then (⊤, none)
    else cellWith (fun m' i' j' => (tblF c f m' i' j').1) c m i j

/-- The table cell `opt[m][i][j]` of `_compute_table` (`⊤` is the Python
`float("inf")`).  Each cell of the table is independent of `mmax`, which only
bounds which cells the Python table stores. -/
def opt (c : Chain) (m i j : ℕ) : ℕ∞ := (tblF c (m + (j - i) + 1) m i j).1

/-- The table cell `what[m][i][j]` of `_compute_table`; `none` models a key
the source never assigns (base cells and cells below the feasibility floor). -/
def what (c : Chain) (m i j : ℕ) : Option What := (tblF c (m + (j - i) + 1) m i j).2

/-- The `leaf_checkpoints` list of a cell, written with the canonical cell
function `opt`. -/
def leafListC (c : Chain) (m i j : ℕ) : List (ℕ × ℕ∞) := leafListWith (opt c) c m i j

/-- The best leaf-option value of a cell (`⊤` when no boundary is feasible). -/
def bestLeafVal (c : Chain) (m i j : ℕ) : ℕ∞ := blVal (leafListC c m i j)

/-- The `chain_checkpoint` value of a cell, written with the canonical cell
function `opt`. -/
def chainValC (c : Chain) (m i j : ℕ) : ℕ∞ := chainValWith (opt c) c m i j

/-- Modelled from the spec: the atomic operations of a `Sequence` (classes in
`colossalai/fx/passes/algorithms/utils.py`, outside the given sources); the
spec describes a `Sequence` as an ordered list of these variants, so a
sequence is embedded as `List Op` (the flattened `list_operations` view in
which `insert` appends an operation and `insert_sequence` appends a whole
sub-sequence). -/
inductive Op where
  | ForwardEnable (i : ℕ) : Op
  | ForwardCheck (i : ℕ) : Op
  | ForwardNograd (i : ℕ) : Op
  | Backward (i : ℕ) : Op
  | Loss : Op
deriving DecidableEq

/-- The errors `_rec` raises: `negMem cmem` is the
`Can not process a chain with negative memory {cmem}` ValueError (it names
only the memory value), `infeasible lmin lmax cmem` is the
`Can not process this chain from index {lmin} to {lmax} with memory {cmem}`
ValueError (it names the range and the memory value), and `keyErr` models the
KeyError of reading a `what` entry the solver never set.  `fuelOut` is the
artefact of the fuelled embedding and is never produced with enough fuel. -/
inductive RecError where
  | negMem (cmem : ℕ) : RecError
  | infeasible (lmin lmax cmem : ℕ) : RecError
  | keyErr (lmin lmax cmem : ℕ) : RecError
  | fuelOut : RecError
deriving DecidableEq

/-- The sequence reconstructor `_rec`, returning the flattened operation list.
Control flow follows the source: first the `cmem <= 0` check (memories are
embedded as `ℕ`, Python values that would be negative are truncated to `0` by
the earlier `ℕ`-subtraction and land in the same error branch), then the
`opt[cmem][lmin][lmax] == inf` check, then the `lmin == lmax` base case, then
the branch on `what[cmem][lmin][lmax]`.  The chain branch recurses on
`(lmin+1, lmax)` with `cmem - chain.cbweight[lmin+1]`; the leaf branch with
boundary `j` emits `ForwardCheck lmin`, `ForwardNograd k` for
`k in range(lmin+1, j)`, then the `(j, lmax)` suffix at `cmem - chain.cweight[j]`
and the `(lmin, j-1)` front part at `cmem`.  A raised error propagates. -/
def recSeq (c : Chain) : ℕ → ℕ → ℕ → ℕ → Except RecError (List Op)
  | 0, _, _, _ => .error .fuelOut
  | f + 1, lmin, lmax, cmem =>
    if cmem = 0 then .error (.negMem cmem)
    else if opt c cmem lmin lmax = ⊤ then .error (.infeasible lmin lmax cmem)
    else if lmin = lmax then
      if lmin = c.length then .ok [.Loss]
      else .ok [.ForwardEnable lmin, .Backward lmin]
    else
      match what c cmem lmin lmax with
      | some .chain =>
        match recSeq c f (lmin + 1) lmax (cmem - cbwA c (lmin + 1)) with
        | .error e => .error e
        | .ok s => .ok ([.ForwardEnable lmin] ++ s ++ [.Backward lmin])
      | some (.leaf j) =>
        match recSeq c f j lmax (cmem - cwA c j) with
        | .error e => .error e
        | .ok s1 =>
          match recSeq c f lmin (j - 1) cmem with
          | .error e => .error e
          | .ok s2 =>
            .ok ([.ForwardCheck lmin] ++
              (List.range' (lmin + 1) (j - (lmin + 1))).map .ForwardNograd ++
              s1 ++ s2)
      | none => .error (.keyErr lmin lmax cmem)

/-- The time contribution of one operation, as summed by the round-trip
property of the spec: forward operations contribute `fwd_time[i]`, backward
operations `bwd_time[i]`, and `Loss` contributes the terminal costs
`fwd_time[L] + bwd_time[L]`. -/
def opCost (c : Chain) : Op → ℕ
  | .ForwardEnable i => fwA c i
  | .ForwardCheck i => fwA c i
  | .ForwardNograd i => fwA c i
  | .Backward i => bwA c i
  | .Loss => fwA c c.length + bwA c c.length

/-- Total time of a reconstructed sequence. -/
def seqCost (c : Chain) (s : List Op) : ℕ := (s.map (opCost c)).sum

/-- `_discretize(mem_unit, values)`: `[math.ceil(value / mem_unit) for value
in values]`, idealised over `ℚ` (the source computes with Python floats). -/
def discretize (mem_unit : ℚ) (values : List ℚ) : List ℤ :=
  values.map (fun v => ⌈v / mem_unit⌉)

/-- Errors observable in the arithmetic prelude of `solver_rotor` before
`_compute_table` is reached: Python `ZeroDivisionError` from the float floor
division computing `mem_unit`, or from `value / mem_unit` inside
`_discretize`. -/
inductive ConfigError where
  | zeroDivFloorDiv : ConfigError
  | zeroDivDiscretize : ConfigError
deriving DecidableEq

/-- Python float floor division `a // b`, idealised over `ℚ`: raises
`ZeroDivisionError` when `b = 0`, otherwise `⌊a / b⌋`. -/
def floorDivQ (a b : ℚ) : Except ConfigError ℤ :=
  if b = 0 then .error .zeroDivFloorDiv else .ok ⌊a / b⌋

/-- `_discretize` with the Python `ZeroDivisionError` surfaced: dividing by a
zero `mem_unit` raises at the first element (float division by zero raises
for every numerator). -/
def discretizeE (mem_unit : ℚ) : List ℚ → Except ConfigError (List ℤ)
  | [] => .ok []
  | v :: t =>
    if mem_unit = 0 then .error .zeroDivDiscretize
    else
      match discretizeE mem_unit t with
      | .error e => .error e
      | .ok r => .ok (⌈v / mem_unit⌉ :: r)

/-- The raw byte quantities `_construct_chain` discretizes, in the order the
source discretizes them: `xbar_sizes`, `x_sizes`, `tmp_fwd`, `tmp_bwd`
(`xbar_sizes` and `x_sizes` always start with the input-data size, so they
are never empty in the source). -/
structure RawSizes where
  xbar : List ℚ
  x : List ℚ
  tf : List ℚ
  tb : List ℚ

/-- The arithmetic prelude of `solver_rotor` up to (but not including) the
call to `_compute_table`:
`mem_unit = mem_limit * (1.0 - eps) // mem_slots` followed by the four
`_discretize` calls of `_construct_chain`.  The source performs no validation
of `mem_limit` or `mem_slots`; the only failures are the division-by-zero
errors.  An `.ok` result means the DP table is then built. -/
def rotorPrelude (mem_limit mem_slots : ℤ) (eps : ℚ) (raw : RawSizes) :
    Except ConfigError (List ℤ × List ℤ × List ℤ × List ℤ) :=
  match floorDivQ ((mem_limit : ℚ) * (1 - eps)) (mem_slots : ℚ) with
  | .error e => .error e
  | .ok mem_unit =>
    match discretizeE (mem_unit : ℚ) raw.xbar with
    | .error e => .error e
    | .ok xbar =>
      match discretizeE (mem_unit : ℚ) raw.x with
      | .error e => .error e
      | .ok x =>
        match discretizeE (mem_unit : ℚ) raw.tf with
        | .error e => .error e
        | .ok tf =>
          match discretizeE (mem_unit : ℚ) raw.tb with
          | .error e => .error e
          | .ok tb => .ok (xbar, x, tf, tb)

/-- Concrete chain (one stage, `fw=[1]`, `bw=[1,1]`, all sizes zero except
`cbweight[1] = 1`) on which a feasible reconstruction request raises: the
table records a chain decision at `(cmem, lmin, lmax) = (1, 0, 1)`, and the
recursive call then runs with memory `1 - cbweight[1] = 0`. -/
def chainC1x : Chain := ⟨[1], [1, 1], [0, 0], [0, 1], [0], [0, 0]⟩

/-- Concrete one-stage chain (`fw=[2]`, `bw=[4,0]`, all sizes zero) whose
reconstruction succeeds; used to instantiate the round-trip theorem. -/
def chainC1w : Chain := ⟨[2], [4, 0], [0, 0], [0, 0], [0], [0, 0]⟩

/-- Concrete one-stage chain with `fwd_tmp = [5]` and all sizes zero: at
`m = 0` the cell `(0, 0, 1)` is below its feasibility floor (`mmin = 5`), yet
the leaf boundary `k = 1` satisfies `m ≥ x_size[1] = 0` and both the best
leaf total and the chain total are `∞`. -/
def chainC2x : Chain := ⟨[1], [1, 1], [0, 0], [0, 0], [5], [0, 0]⟩

/-- Concrete one-stage chain with `fw=[0]`, `bw=[1,1]` and all sizes zero: at
the cell `(0, 0, 1)` the best leaf total and the chain total are both `2`, an
exact tie. -/
def chainC2w : Chain := ⟨[0], [1, 1], [0, 0], [0, 0], [0], [0, 0]⟩

/-- Concrete chain used to instantiate the memory-monotonicity theorem. -/
def chainC3w : Chain := ⟨[1], [1, 1], [0, 0], [0, 1], [0], [0, 0]⟩

/-- The one-stage chain of the base-case claim: `fwd_time = [5]`,
`bwd_time = [3, 0]` (terminal cost 0 appended), all sizes zero. -/
def chainC4 : Chain := ⟨[5], [3, 0], [0, 0], [0, 0], [0], [0, 0]⟩

/-- Concrete one-stage chain used to instantiate the leaf-option minimum
theorem. -/
def chainC5w : Chain := ⟨[1], [1, 1], [0, 0], [0, 0], [0], [0, 0]⟩

/-- Concrete one-stage chain with `fwd_tmp = [1]`: the cell `(0, 0, 1)` is
below its feasibility floor. -/
def chainC6w : Chain := ⟨[1], [1, 1], [0, 0], [0, 0], [1], [0, 0]⟩

/-- Concrete chain (one stage, `cbweight[1] = 2`) on which the feasible
request `(lmin, lmax, cmem) = (0, 1, 2)` raises from the recursive chain-branch
call at memory `2 - cbweight[1] = 0`. -/
def chainC7x : Chain := ⟨[1], [2, 1], [0, 0], [0, 2], [0], [0, 0]⟩

/-- Concrete one-stage chain with `fwd_tmp = [2]`: the request
`(0, 1, cmem = 1)` is infeasible (`opt = ∞`). -/
def chainC7w : Chain := ⟨[1], [1, 1], [0, 0], [0, 0], [2], [0, 0]⟩

end RotorCkpt

namespace VarMean

/-- Python exception kinds relevant to the `torch.var_mean` branch: reading a
local variable before any assignment to it raises
`UnboundLocalError` (a subclass of `NameError`) naming the variable. -/
inductive PyExc where
  | unboundLocal (name : String) : PyExc
deriving DecidableEq

/-- A statement abstracted to its variable-binding behaviour: an assignment
`target = expr(reads)` or a bare expression (the `assert`), with `reads` the
local names the expression reads, in evaluation order. -/
inductive Stmt where
  | assign (target : String) (reads : List String) : Stmt
  | expr (reads : List String) : Stmt

/-- The set of bound local names, as a Boolean predicate. -/
def Env : Type := String → Bool

/-- Execute one statement: the first read of an unbound local raises
`UnboundLocalError`; an assignment binds its target afterwards. -/
def execStmt (env : Env) : Stmt → Except PyExc Env
  | .assign t rs =>
    match rs.find? (fun r => !env r) with
    | some r => .error (.unboundLocal r)
    | none => .ok (fun n => n == t || env n)
  | .expr rs =>
    match rs.find? (fun r => !env r) with
    | some r => .error (.unboundLocal r)
    | none => .ok env

/-- Execute a statement list in order; a raised exception propagates. -/
def runStmts (env : Env) : List Stmt → Except PyExc Env
  | [] => .ok env
  | s :: rest =>
    match execStmt env s with
    | .error e => .error e
    | .ok env' => runStmts env' rest

/-- The statements executed by the `torch.var_mean` branch of
`StrategiesConstructor.build_strategies_and_cost` up to and including the
`name = f-string` assignment of the source, abstracted to their
variable-binding behaviour, in source order:
`dim = node.kwargs[...]`;
`input_tensor_node = strategies_vector.predecessor_nodes[0]`;
the `for` statement binding `strategy` (first iteration of the loop over
`input_tensor_node.strategies_vector`, which is non-empty when the first
predecessor carries at least one strategy);
`input_sharding_spec = strategy.output_sharding_spec`;
the `assert isinstance(input_sharding_spec, ShardingSpec)`;
`entire_shape_input = input_sharding_spec.entire_shape`;
`dim_partition_dict_input = input_sharding_spec.dim_partition_dict`;
and the `name` assignment, whose f-string reads
`new_input_sharding_spec` first and `output_sharding_spec` twice (only later
statements of the branch ever assign `new_input_sharding_spec`). -/
def varMeanBranchStmts : List Stmt :=
  [.assign "dim" ["node"],
   .assign "input_tensor_node" ["strategies_vector"],
   .assign "strategy" ["input_tensor_node"],
   .assign "input_sharding_spec" ["strategy"],
   .expr ["input_sharding_spec"],
   .assign "entire_shape_input" ["input_sharding_spec"],
   .assign "dim_partition_dict_input" ["input_sharding_spec"],
   .assign "name"
     ["new_input_sharding_spec", "output_sharding_spec", "output_sharding_spec"]]

/-- The local names `build_strategies_and_cost` can have bound when control
reaches the `torch.var_mean` branch: names assigned by earlier iterations of
the node loop or by earlier statements of this iteration (assignments inside
other `elif` branches included, since the loop variable `node` changes each
iteration while locals persist), together with the names bound on entry.
`new_input_sharding_spec` is assigned nowhere in the function outside the
`var_mean` branch itself, hence is absent. -/
def reachableLocals : List String :=
  ["self", "node", "strategies_vector", "input_nodes_len", "name",
   "dim_partition_dict", "output_sharding_spec", "memory_cost",
   "sharding_strategy_placeholder", "sharding_strategy_attribute", "target",
   "submod", "submod_type", "conv_handler", "dot_handler", "input_node",
   "input_sharding_spec", "compute_cost", "resharding_costs",
   "sharding_strategy", "norm_handler", "new_dim_partition_dict",
   "unary_elementwise_handler", "dim", "input_tensor_node", "strategy",
   "entire_shape_input", "dim_partition_dict_input"]

/-- The environment binding exactly the locals that can be bound on entry to
the `torch.var_mean` branch. -/
def reachableEnv : Env := fun n => reachableLocals.contains n

end VarMean

/-! Helper lemmas about the embedded solver. -/

namespace RotorCkpt

theorem bestLeaf_eq_none {l : List (ℕ × ℕ∞)} : bestLeaf l = none ↔ l = [] := by
  cases l with
  | nil => simp [bestLeaf]
  | cons p ps =>
    constructor
    · intro h
      exfalso
      simp only [bestLeaf] at h
      cases hb : bestLeaf ps with
      | none => rw [hb] at h; simp only [blCombine] at h; exact Option.noConfusion h
      | some q =>
        rw [hb] at h
        simp only [blCombine] at h
        by_cases hq : q.2 < p.2 <;> simp [hq] at h
    · intro h; exact List.noConfusion h

theorem bestLeaf_mem : ∀ {l : List (ℕ × ℕ∞)} {q : ℕ × ℕ∞},
    bestLeaf l = some q → q ∈ l := by
  intro l
  induction l with
  | nil => intro q h; exact Option.noConfusion h
  | cons p ps ih =>
    intro q h
    simp only [bestLeaf] at h
    cases hb : bestLeaf ps with
    | none =>
      rw [hb] at h; simp only [blCombine] at h; injection h with h
      exact h ▸ List.mem_cons_self p ps
    | some r =>
      rw [hb] at h
      simp only [blCombine] at h
      by_cases hr : r.2 < p.2
      · rw [if_pos hr] at h; injection h with h
        exact h ▸ List.mem_cons_of_mem p (ih hb)
      · rw [if_neg hr] at h; injection h with h
        exact h ▸ List.mem_cons_self p ps

theorem bestLeaf_min : ∀ {l : List (ℕ × ℕ∞)} {q : ℕ × ℕ∞},
    bestLeaf l = some q → ∀ p ∈ l, q.2 ≤ p.2 := by
  intro l
  induction l with
  | nil => intro q h; exact Option.noConfusion h
  | cons p ps ih =>
    intro q h x hx
    simp only [bestLeaf] at h
    cases hb : bestLeaf ps with
    | none =>
      rw [hb] at h; simp only [blCombine] at h; injection h with h; subst h
      have hps : ps = [] := bestLeaf_eq_none.mp hb
      subst hps
      rcases List.mem_singleton.mp hx with rfl
      exact le_refl _
    | some r =>
      rw [hb] at h
      simp only [blCombine] at h
      by_cases hr : r.2 < p.2
      · rw [if_pos hr] at h; injection h with h; subst h
        rcases List.mem_cons.mp hx with rfl | hx'
        · exact le_of_lt hr
        · exact ih hb x hx'
      · rw [if_neg hr] at h; injection h with h; subst h
        rcases List.mem_cons.mp hx with rfl | hx'
        · exact le_refl _
        · exact le_trans (not_lt.mp hr) (ih hb x hx')

theorem blVal_le_of_mem {l : List (ℕ × ℕ∞)} {p : ℕ × ℕ∞} (h : p ∈ l) :
    blVal l ≤ p.2 := by
  unfold blVal
  cases hb : bestLeaf l with
  | none =>
    rw [bestLeaf_eq_none.mp hb] at h
    exact absurd h (List.not_mem_nil p)
  | some q => exact bestLeaf_min hb p h

theorem blVal_dom {l₁ l₂ : List (ℕ × ℕ∞)}
    (h : ∀ p ∈ l₁, ∃ q ∈ l₂, q.2 ≤ p.2) : blVal l₂ ≤ blVal l₁ := by
  cases hb : bestLeaf l₁ with
  | none => simp [blVal, hb]
  | some q =>
    obtain ⟨q', hq', hle⟩ := h q (bestLeaf_mem hb)
    calc blVal l₂ ≤ q'.2 := blVal_le_of_mem hq'
    _ ≤ q.2 := hle
    _ = blVal l₁ := by simp [blVal, hb]

theorem blVal_some {l : List (ℕ × ℕ∞)} {q : ℕ × ℕ∞} (h : bestLeaf l = some q) :
    blVal l = q.2 := by simp [blVal, h]

/-- The fuelled evaluator is independent of the fuel once the fuel exceeds
`m + (j - i)`. -/
theorem tblF_congr (c : Chain) : ∀ f₁ f₂ m i j : ℕ, m + (j - i) < f₁ →
    m + (j - i) < f₂ → tblF c f₁ m i j = tblF c f₂ m i j := by
  intro f₁
  induction f₁ with
  | zero => intro f₂ m i j h1 h2; omega
  | succ f ih =>
    intro f₂ m i j h1 h2
    obtain ⟨g, rfl⟩ : ∃ g, f₂ = g + 1 := ⟨f₂ - 1, by omega⟩
    simp only [tblF]
    by_cases hij : j ≤ i
    · simp [hij]
    · by_cases hm : m < mminD c i j
      · simp [hij, hm]
      · simp only [if_neg hij, if_neg hm]
        have hsub : ∀ m' i' j' : ℕ, m' + (j' - i') < f → m' + (j' - i') < g →
            (tblF c f m' i' j').1 = (tblF c g m' i' j').1 := by
          intro m' i' j' ha hb
          rw [ih g m' i' j' ha hb]
        have hij' : i < j := not_le.mp hij
        have hleaf : leafListWith (fun m' i' j' => (tblF c f m' i' j').1) c m i j =
            leafListWith (fun m' i' j' => (tblF c g m' i' j').1) c m i j := by
          unfold leafListWith
          apply List.map_congr_left
          intro k hk
          obtain ⟨hk1, hk2⟩ := List.mem_range'_1.mp (List.mem_filter.mp hk).1
          have hck : m - cwA c k ≤ m := Nat.sub_le m (cwA c k)
          have e1 : (tblF c f (m - cwA c k) k j).1 = (tblF c g (m - cwA c k) k j).1 :=
            hsub (m - cwA c k) k j (by omega) (by omega)
          have e2 : (tblF c f m i (k - 1)).1 = (tblF c g m i (k - 1)).1 :=
            hsub m i (k - 1) (by omega) (by omega)
          simp only [e1, e2]
        have hchain : chainValWith (fun m' i' j' => (tblF c f m' i' j').1) c m i j =
            chainValWith (fun m' i' j' => (tblF c g m' i' j').1) c m i j := by
          unfold chainValWith
          have hcb' : m - cbwA c (i + 1) ≤ m := Nat.sub_le m (cbwA c (i + 1))
          have e1 : (tblF c f m i i).1 = (tblF c g m i i).1 :=
            hsub m i i (by omega) (by omega)
          have e2 : (tblF c f (m - cbwA c (i + 1)) (i + 1) j).1 =
              (tblF c g (m - cbwA c (i + 1)) (i + 1) j).1 :=
            hsub (m - cbwA c (i + 1)) (i + 1) j (by omega) (by omega)
          simp only [e1, e2]
        unfold cellWith
        rw [hleaf, hchain]

/-- Base cells (`lmax - lmin = 0`): Equation (1) of the source. -/
theorem opt_base (c : Chain) (m i j : ℕ) (hij : j ≤ i) :
    opt c m i j = if limitD c i ≤ m then ((fwA c i + bwA c i : ℕ) : ℕ∞) else ⊤ := by
  have h : tblF c (m + (j - i) + 1) m i j =
      (if limitD c i ≤ m then ((fwA c i + bwA c i : ℕ) : ℕ∞) else ⊤, none) := by
    simp only [tblF, if_pos hij]
  exact congrArg Prod.fst h

/-- Base cells never get a `what` entry. -/
theorem what_base (c : Chain) (m i j : ℕ) (hij : j ≤ i) : what c m i j = none := by
  have h : tblF c (m + (j - i) + 1) m i j =
      (if limitD c i ≤ m then ((fwA c i + bwA c i : ℕ) : ℕ∞) else ⊤, none) := by
    simp only [tblF, if_pos hij]
  exact congrArg Prod.snd h

/-- Below the feasibility floor the cell is infeasible and no decision is
recorded. -/
theorem opt_what_infeasible (c : Chain) (m i j : ℕ) (hij : i < j)
    (hm : m < mminD c i j) : opt c m i j = ⊤ ∧ what c m i j = none := by
  have h : tblF c (m + (j - i) + 1) m i j = (⊤, none) := by
    simp only [tblF, if_neg (not_le.mpr hij), if_pos hm]
  exact ⟨congrArg Prod.fst h, congrArg Prod.snd h⟩

/-- The recurrence cell at canonical fuel evaluates `cellWith` over the
canonical cell function. -/
theorem tbl_rec (c : Chain) (m i j : ℕ) (hij : i < j) (hm : mminD c i j ≤ m) :
    tblF c (m + (j - i) + 1) m i j = cellWith (opt c) c m i j := by
  simp only [tblF, if_neg (not_le.mpr hij), if_neg (not_lt.mpr hm)]
  have hji : 1 ≤ j - i := by omega
  have hleaf : leafListWith (fun m' i' j' => (tblF c (m + (j - i)) m' i' j').1) c m i j =
      leafListWith (opt c) c m i j := by
    unfold leafListWith
    apply List.map_congr_left
    intro k hk
    obtain ⟨hk1, hk2⟩ := List.mem_range'_1.mp (List.mem_filter.mp hk).1
    have hck : m - cwA c k ≤ m := Nat.sub_le m (cwA c k)
    have e1 : (tblF c (m + (j - i)) (m - cwA c k) k j).1 = opt c (m - cwA c k) k j := by
      unfold opt
      rw [tblF_congr c (m + (j - i)) (m - cwA c k + (j - k) + 1) (m - cwA c k) k j
        (by omega) (by omega)]
    have e2 : (tblF c (m + (j - i)) m i (k - 1)).1 = opt c m i (k - 1) := by
      unfold opt
      rw [tblF_congr c (m + (j - i)) (m + (k - 1 - i) + 1) m i (k - 1)
        (by omega) (by omega)]
    simp only [e1, e2]
  have hchain : chainValWith (fun m' i' j' => (tblF c (m + (j - i)) m' i' j').1) c m i j =
      chainValWith (opt c) c m i j := by
    unfold chainValWith
    have hcb' : m - cbwA c (i + 1) ≤ m := Nat.sub_le m (cbwA c (i + 1))
    have e1 : (tblF c (m + (j - i)) m i i).1 = opt c m i i := by
      unfold opt
      rw [tblF_congr c (m + (j - i)) (m + (i - i) + 1) m i i (by omega) (by omega)]
    have e2 : (tblF c (m + (j - i)) (m - cbwA c (i + 1)) (i + 1) j).1 =
        opt c (m - cbwA c (i + 1)) (i + 1) j := by
      unfold opt
      rw [tblF_congr c (m + (j - i)) (m - cbwA c (i + 1) + (j - (i + 1)) + 1)
        (m - cbwA c (i + 1)) (i + 1) j (by omega) (by omega)]
    simp only [e1, e2]
  unfold cellWith
  rw [hleaf, hchain]

/-- Cell equation: no feasible leaf boundary records the chain decision. -/
theorem cellWith_none {o : ℕ → ℕ → ℕ → ℕ∞} {c : Chain} {m i j : ℕ}
    (h : bestLeaf (leafListWith o c m i j) = none) :
    cellWith o c m i j = (chainValWith o c m i j, some What.chain) := by
  unfold cellWith
  rw [h]

/-- Cell equation: a best leaf no worse than the chain records the leaf. -/
theorem cellWith_some_le {o : ℕ → ℕ → ℕ → ℕ∞} {c : Chain} {m i j : ℕ}
    {kv : ℕ × ℕ∞} (h : bestLeaf (leafListWith o c m i j) = some kv)
    (hle : kv.2 ≤ chainValWith o c m i j) :
    cellWith o c m i j = (kv.2, some (What.leaf kv.1)) := by
  unfold cellWith
  rw [h]
  show (if kv.2 ≤ chainValWith o c m i j then
      ((kv.2, some (What.leaf kv.1)) : ℕ∞ × Option What)
    else (chainValWith o c m i j, some What.chain)) = _
  rw [if_pos hle]

/-- Cell equation: a best leaf strictly worse than the chain records the
chain decision. -/
theorem cellWith_some_gt {o : ℕ → ℕ → ℕ → ℕ∞} {c : Chain} {m i j : ℕ}
    {kv : ℕ × ℕ∞} (h : bestLeaf (leafListWith o c m i j) = some kv)
    (hgt : ¬kv.2 ≤ chainValWith o c m i j) :
    cellWith o c m i j = (chainValWith o c m i j, some What.chain) := by
  unfold cellWith
  rw [h]
  show (if kv.2 ≤ chainValWith o c m i j then
      ((kv.2, some (What.leaf kv.1)) : ℕ∞ × Option What)
    else (chainValWith o c m i j, some What.chain)) = _
  rw [if_neg hgt]

/-- The first component of a recurrence cell is the minimum of the best leaf
value and the chain value. -/
theorem cellWith_fst (o : ℕ → ℕ → ℕ → ℕ∞) (c : Chain) (m i j : ℕ) :
    (cellWith o c m i j).1 =
      min (blVal (leafListWith o c m i j)) (chainValWith o c m i j) := by
  cases hb : bestLeaf (leafListWith o c m i j) with
  | none =>
    rw [cellWith_none hb]
    have hbv : blVal (leafListWith o c m i j) = ⊤ := by unfold blVal; rw [hb]
    rw [hbv]
    exact (min_eq_right le_top).symm
  | some kv =>
    have hbv : blVal (leafListWith o c m i j) = kv.2 := blVal_some hb
    by_cases hkv : kv.2 ≤ chainValWith o c m i j
    · rw [cellWith_some_le hb hkv, hbv]
      exact (min_eq_left hkv).symm
    · rw [cellWith_some_gt hb hkv, hbv]
      exact (min_eq_right (le_of_not_le hkv)).symm

/-- Recurrence cells of the table: the recorded value is the minimum of the
best leaf total and the chain total. -/
theorem opt_rec_min (c : Chain) (m i j : ℕ) (hij : i < j) (hm : mminD c i j ≤ m) :
    opt c m i j = min (bestLeafVal c m i j) (chainValC c m i j) := by
  have h := congrArg Prod.fst (tbl_rec c m i j hij hm)
  rw [cellWith_fst] at h
  exact h

/-- Recurrence cells of the table: the recorded decision. -/
theorem what_rec_eq (c : Chain) (m i j : ℕ) (hij : i < j) (hm : mminD c i j ≤ m) :
    what c m i j = (cellWith (opt c) c m i j).2 :=
  congrArg Prod.snd (tbl_rec c m i j hij hm)

/-- Every recurrence cell at or above the floor records a decision. -/
theorem what_isSome (c : Chain) (m i j : ℕ) (hij : i < j) (hm : mminD c i j ≤ m) :
    ∃ w, what c m i j = some w := by
  rw [what_rec_eq c m i j hij hm]
  cases hb : bestLeaf (leafListWith (opt c) c m i j) with
  | none => exact ⟨What.chain, by rw [cellWith_none hb]⟩
  | some kv =>
    by_cases hkv : kv.2 ≤ chainValWith (opt c) c m i j
    · exact ⟨What.leaf kv.1, by rw [cellWith_some_le hb hkv]⟩
    · exact ⟨What.chain, by rw [cellWith_some_gt hb hkv]⟩

/-- A finite recurrence cell lies at or above its feasibility floor. -/
theorem floor_of_finite (c : Chain) (m i j : ℕ) (hij : i < j)
    (hopt : opt c m i j ≠ ⊤) : mminD c i j ≤ m := by
  by_contra h
  exact hopt (opt_what_infeasible c m i j hij (not_le.mp h)).1

/-- A recorded decision implies the cell sits at or above its floor. -/
theorem floor_of_what (c : Chain) (m i j : ℕ) {w : What} (hij : i < j)
    (hw : what c m i j = some w) : mminD c i j ≤ m := by
  by_contra h
  rw [(opt_what_infeasible c m i j hij (not_le.mp h)).2] at hw
  exact Option.noConfusion hw

/-- A recorded chain decision pins the cell value to the chain total. -/
theorem opt_of_what_chain (c : Chain) (m i j : ℕ) (hij : i < j)
    (hw : what c m i j = some What.chain) : opt c m i j = chainValC c m i j := by
  have hm : mminD c i j ≤ m := floor_of_what c m i j hij hw
  rw [what_rec_eq c m i j hij hm] at hw
  rw [opt_rec_min c m i j hij hm]
  cases hb : bestLeaf (leafListWith (opt c) c m i j) with
  | none =>
    have hbv : bestLeafVal c m i j = ⊤ := by
      unfold bestLeafVal leafListC blVal
      rw [hb]
    rw [hbv]
    exact min_eq_right le_top
  | some kv =>
    by_cases hkv : kv.2 ≤ chainValWith (opt c) c m i j
    · rw [cellWith_some_le hb hkv] at hw
      simp at hw
    · have hbv : bestLeafVal c m i j = kv.2 := blVal_some hb
      rw [hbv]
      exact min_eq_right (le_of_not_le hkv)

/-- A recorded leaf decision carries an in-range, memory-feasible boundary and
pins the cell value to that boundary's leaf total. -/
theorem opt_of_what_leaf (c : Chain) (m i j k : ℕ) (hij : i < j)
    (hw : what c m i j = some (What.leaf k)) :
    (i + 1 ≤ k ∧ k ≤ j ∧ cwA c k ≤ m) ∧
      opt c m i j = ((sumFw c i k : ℕ) : ℕ∞) +
        opt c (m - cwA c k) k j + opt c m i (k - 1) := by
  have hm : mminD c i j ≤ m := floor_of_what c m i j hij hw
  rw [what_rec_eq c m i j hij hm] at hw
  cases hb : bestLeaf (leafListWith (opt c) c m i j) with
  | none =>
    rw [cellWith_none hb] at hw
    simp at hw
  | some kv =>
    by_cases hkv : kv.2 ≤ chainValWith (opt c) c m i j
    · rw [cellWith_some_le hb hkv] at hw
      obtain ⟨a, ha, hfa⟩ := List.mem_map.mp (bestLeaf_mem hb)
      obtain ⟨har, hacw⟩ := List.mem_filter.mp ha
      obtain ⟨ha1, ha2⟩ := List.mem_range'_1.mp har
      obtain ⟨kv1, kv2⟩ := kv
      simp only [Prod.mk.injEq] at hfa
      obtain ⟨hfa1, hfa2⟩ := hfa
      simp only [Option.some.injEq, What.leaf.injEq] at hw
      subst hw
      subst hfa1
      have hcw : cwA c a ≤ m := by
        simp only [decide_eq_true_eq] at hacw
        exact hacw
      refine ⟨⟨ha1, by omega, hcw⟩, ?_⟩
      rw [opt_rec_min c m i j hij hm]
      have hbl : bestLeafVal c m i j = kv2 := blVal_some hb
      rw [hbl, ← hfa2]
      exact min_eq_left (by rw [hfa2]; exact hkv)
    · rw [cellWith_some_gt hb hkv] at hw
      simp at hw

/-- At every fuel, the cell value is antitone in the available memory. -/
theorem tblF_fst_mono (c : Chain) : ∀ f m₁ m₂ i j : ℕ, m₁ ≤ m₂ →
    (tblF c f m₂ i j).1 ≤ (tblF c f m₁ i j).1 := by
  intro f
  induction f with
  | zero => intro m₁ m₂ i j h; exact le_refl _
  | succ f ih =>
    intro m₁ m₂ i j h
    simp only [tblF]
    by_cases hij : j ≤ i
    · rw [if_pos hij, if_pos hij]
      by_cases hl : limitD c i ≤ m₁
      · rw [if_pos hl, if_pos (le_trans hl h)]
      · rw [if_neg hl]
        exact le_top
    · rw [if_neg hij, if_neg hij]
      by_cases hm1 : m₁ < mminD c i j
      · rw [if_pos hm1]
        exact le_top
      · rw [if_neg hm1, if_neg (show ¬m₂ < mminD c i j by omega)]
        rw [cellWith_fst, cellWith_fst]
        refine min_le_min ?_ ?_
        · apply blVal_dom
          intro p hp
          obtain ⟨a, ha, hfa⟩ := List.mem_map.mp hp
          obtain ⟨har, hacw⟩ := List.mem_filter.mp ha
          have hcw1 : cwA c a ≤ m₁ := by
            simp only [decide_eq_true_eq] at hacw
            exact hacw
          have hmem2 : a ∈ (List.range' (i + 1) (j - i)).filter
              (fun k => cwA c k ≤ m₂) :=
            List.mem_filter.mpr ⟨har, by simp only [decide_eq_true_eq]; omega⟩
          obtain ⟨p1, p2⟩ := p
          simp only [Prod.mk.injEq] at hfa
          obtain ⟨hfa1, hfa2⟩ := hfa
          refine ⟨(a, ((sumFw c i a : ℕ) : ℕ∞) +
            (tblF c f (m₂ - cwA c a) a j).1 + (tblF c f m₂ i (a - 1)).1),
            List.mem_map.mpr ⟨a, hmem2, rfl⟩, ?_⟩
          show ((sumFw c i a : ℕ) : ℕ∞) +
            (tblF c f (m₂ - cwA c a) a j).1 + (tblF c f m₂ i (a - 1)).1 ≤ p2
          rw [← hfa2]
          exact add_le_add
            (add_le_add (le_refl _)
              (ih (m₁ - cwA c a) (m₂ - cwA c a) a j (by omega)))
            (ih m₁ m₂ i (a - 1) h)
        · unfold chainValWith
          by_cases hcb : cbwA c (i + 1) ≤ m₁
          · rw [if_pos hcb, if_pos (le_trans hcb h)]
            exact add_le_add (ih m₁ m₂ i i h)
              (ih (m₁ - cbwA c (i + 1)) (m₂ - cbwA c (i + 1)) (i + 1) j (by omega))
          · rw [if_neg hcb]
            exact le_top

/-- The cell value is antitone in the available memory. -/
theorem opt_mono (c : Chain) {m₁ m₂ : ℕ} (i j : ℕ) (h : m₁ ≤ m₂) :
    opt c m₂ i j ≤ opt c m₁ i j := by
  unfold opt
  have e : tblF c (m₁ + (j - i) + 1) m₁ i j = tblF c (m₂ + (j - i) + 1) m₁ i j :=
    tblF_congr c (m₁ + (j - i) + 1) (m₂ + (j - i) + 1) m₁ i j (by omega) (by omega)
  rw [e]
  exact tblF_fst_mono c (m₂ + (j - i) + 1) m₁ m₂ i j h

theorem seqCost_append (c : Chain) (a b : List Op) :
    seqCost c (a ++ b) = seqCost c a + seqCost c b := by
  simp [seqCost]

/-- Sequence cost of a run of `ForwardNograd` operations. -/
theorem seqCost_nograd (c : Chain) (l : List ℕ) :
    seqCost c (l.map .ForwardNograd) = (l.map (fwA c)).sum := by
  unfold seqCost
  rw [List.map_map]
  rfl

/-- Whenever `_rec` returns a sequence, its total time is exactly the table
value `opt[cmem][lmin][lmax]` of the requested cell. -/
theorem recSeq_cost (c : Chain) : ∀ (f lmin lmax cmem : ℕ) (s : List Op),
    recSeq c f lmin lmax cmem = .ok s →
    ((seqCost c s : ℕ) : ℕ∞) = opt c cmem lmin lmax := by
  intro f
  induction f with
  | zero =>
    intro lmin lmax cmem s h
    simp [recSeq] at h
  | succ f ih =>
    intro lmin lmax cmem s h
    simp only [recSeq] at h
    by_cases h0 : cmem = 0
    · rw [if_pos h0] at h
      exact absurd h (by simp)
    rw [if_neg h0] at h
    by_cases hinf : opt c cmem lmin lmax = ⊤
    · rw [if_pos hinf] at h
      exact absurd h (by simp)
    rw [if_neg hinf] at h
    by_cases heq : lmin = lmax
    · rw [if_pos heq] at h
      subst heq
      rw [opt_base c cmem lmin lmin (le_refl _)] at hinf ⊢
      by_cases hlim : limitD c lmin ≤ cmem
      · rw [if_pos hlim]
        by_cases hL : lmin = c.length
        · rw [if_pos hL] at h
          simp only [Except.ok.injEq] at h
          subst h
          subst hL
          simp [seqCost, opCost]
        · rw [if_neg hL] at h
          simp only [Except.ok.injEq] at h
          subst h
          simp [seqCost, opCost]
      · rw [if_neg hlim] at hinf
        exact absurd rfl hinf
    · rw [if_neg heq] at h
      cases hwhat : what c cmem lmin lmax with
      | none =>
        rw [hwhat] at h
        exact absurd h (by simp)
      | some w =>
        have hij : lmin < lmax := by
          rcases Nat.lt_or_ge lmin lmax with h' | h'
          · exact h'
          · exfalso
            rw [what_base c cmem lmin lmax (by omega)] at hwhat
            exact Option.noConfusion hwhat
        cases w with
        | chain =>
          simp only [hwhat] at h
          cases hrec : recSeq c f (lmin + 1) lmax (cmem - cbwA c (lmin + 1)) with
          | error e =>
            rw [hrec] at h
            exact absurd h (by simp)
          | ok s' =>
            rw [hrec] at h
            simp only [Except.ok.injEq] at h
            subst h
            have hchain := opt_of_what_chain c cmem lmin lmax hij hwhat
            unfold chainValC chainValWith at hchain
            by_cases hcb : cbwA c (lmin + 1) ≤ cmem
            · rw [if_pos hcb] at hchain
              have hfin : opt c cmem lmin lmin ≠ ⊤ ∧
                  opt c (cmem - cbwA c (lmin + 1)) (lmin + 1) lmax ≠ ⊤ := by
                rw [hchain] at hinf
                exact WithTop.add_ne_top.mp hinf
              have hbv : opt c cmem lmin lmin =
                  ((fwA c lmin + bwA c lmin : ℕ) : ℕ∞) := by
                rw [opt_base c cmem lmin lmin (le_refl _)]
                by_cases hlim : limitD c lmin ≤ cmem
                · rw [if_pos hlim]
                · exfalso
                  apply hfin.1
                  rw [opt_base c cmem lmin lmin (le_refl _), if_neg hlim]
              have hih := ih (lmin + 1) lmax (cmem - cbwA c (lmin + 1)) s' hrec
              rw [hchain, hbv, ← hih]
              rw [seqCost_append, seqCost_append]
              simp only [seqCost, opCost, List.map_cons, List.map_nil,
                List.sum_cons, List.sum_nil]
              push_cast
              ring
            · rw [if_neg hcb] at hchain
              exact absurd hchain hinf
        | leaf j =>
          simp only [hwhat] at h
          obtain ⟨⟨hk1, hk2, hkcw⟩, hval⟩ :=
            opt_of_what_leaf c cmem lmin lmax j hij hwhat
          cases hrec1 : recSeq c f j lmax (cmem - cwA c j) with
          | error e =>
            rw [hrec1] at h
            exact absurd h (by simp)
          | ok s1 =>
            rw [hrec1] at h
            cases hrec2 : recSeq c f lmin (j - 1) cmem with
            | error e =>
              rw [hrec2] at h
              exact absurd h (by simp)
            | ok s2 =>
              rw [hrec2] at h
              simp only [Except.ok.injEq] at h
              subst h
              have hih1 := ih j lmax (cmem - cwA c j) s1 hrec1
              have hih2 := ih lmin (j - 1) cmem s2 hrec2
              have hsum : sumFw c lmin j = fwA c lmin +
                  ((List.range' (lmin + 1) (j - (lmin + 1))).map (fwA c)).sum := by
                unfold sumFw
                rw [show j - lmin = (j - (lmin + 1)) + 1 by omega, List.range'_succ]
                simp
              rw [hval, ← hih1, ← hih2, hsum]
              rw [seqCost_append, seqCost_append, seqCost_append, seqCost_nograd]
              simp only [seqCost, opCost, List.map_cons, List.map_nil,
                List.sum_cons, List.sum_nil]
              push_cast
              ring

/-- Elements of the leaf-candidate list are in-range, memory-feasible
boundaries paired with their leaf totals. -/
theorem leafListC_mem {c : Chain} {m i j : ℕ} {kv : ℕ × ℕ∞}
    (h : kv ∈ leafListC c m i j) :
    (i + 1 ≤ kv.1 ∧ kv.1 < i + 1 + (j - i) ∧ cwA c kv.1 ≤ m) ∧
      kv.2 = ((sumFw c i kv.1 : ℕ) : ℕ∞) +
        opt c (m - cwA c kv.1) kv.1 j + opt c m i (kv.1 - 1) := by
  unfold leafListC leafListWith at h
  obtain ⟨a, ha, hfa⟩ := List.mem_map.mp h
  obtain ⟨har, hacw⟩ := List.mem_filter.mp ha
  obtain ⟨ha1, ha2⟩ := List.mem_range'_1.mp har
  obtain ⟨kv1, kv2⟩ := kv
  simp only [Prod.mk.injEq] at hfa
  obtain ⟨hfa1, hfa2⟩ := hfa
  subst hfa1
  simp only [decide_eq_true_eq] at hacw
  exact ⟨⟨ha1, ha2, hacw⟩, hfa2.symm⟩

/-- Every in-range, memory-feasible boundary contributes its leaf total to the
candidate list. -/
theorem leafListC_mem_intro (c : Chain) (m i j k : ℕ) (hij : i < j)
    (h1 : i + 1 ≤ k) (h2 : k ≤ j) (h3 : cwA c k ≤ m) :
    (k, ((sumFw c i k : ℕ) : ℕ∞) + opt c (m - cwA c k) k j + opt c m i (k - 1))
      ∈ leafListC c m i j := by
  unfold leafListC leafListWith
  exact List.mem_map.mpr ⟨k, List.mem_filter.mpr
    ⟨List.mem_range'_1.mpr ⟨h1, by omega⟩,
     by simp only [decide_eq_true_eq]; exact h3⟩, rfl⟩

/-- C2 (amended): for every cell `(m, i, j)` with `j > i`, with `m` at or
above the cell's feasibility floor `mmin`, where at least one leaf candidate
is feasible (some `k` in `(i, j]` has `m ≥ x_size[k]`) and the best leaf
total is less than or equal to the chain total, `what[m][i][j]` records the
leaf decision with the best boundary `k` (marker `(False, k)`), never the
chain decision; in particular, on an exact tie the leaf decision is recorded.
(Below the floor the source leaves `what[m][i][j]` unset.) -/
theorem c2_tie_leaf (c : Chain) (m i j : ℕ) (hij : i < j) (hm : mminD c i j ≤ m)
    (hx : ∃ k, i < k ∧ k ≤ j ∧ cwA c k ≤ m)
    (hle : bestLeafVal c m i j ≤ chainValC c m i j) :
    ∃ k, i < k ∧ k ≤ j ∧ cwA c k ≤ m ∧
      what c m i j = some (What.leaf k) ∧
      bestLeafVal c m i j = ((sumFw c i k : ℕ) : ℕ∞) +
        opt c (m - cwA c k) k j + opt c m i (k - 1) := by
  obtain ⟨k0, hk01, hk02, hk03⟩ := hx
  have hmem0 := leafListC_mem_intro c m i j k0 hij (by omega) hk02 hk03
  cases hbl : bestLeaf (leafListC c m i j) with
  | none =>
    exfalso
    rw [bestLeaf_eq_none.mp hbl] at hmem0
    exact List.not_mem_nil _ hmem0
  | some kv =>
    have hkv2 : bestLeafVal c m i j = kv.2 := blVal_some hbl
    have hle' : kv.2 ≤ chainValWith (opt c) c m i j := by
      rw [← hkv2]
      exact hle
    obtain ⟨⟨hm1, hm2, hm3⟩, hvform⟩ := leafListC_mem (bestLeaf_mem hbl)
    refine ⟨kv.1, by omega, by omega, hm3, ?_, ?_⟩
    · rw [what_rec_eq c m i j hij hm, cellWith_some_le hbl hle']
    · rw [hkv2, hvform]

/-- C2 witness: on a one-stage chain with `fw = [0]` and all sizes zero, the
cell `(0, 0, 1)` has leaf total equal to chain total (an exact tie, both `2`)
and the leaf decision is recorded. -/
theorem c2_tie_leaf_witness :
    ∃ k, 0 < k ∧ k ≤ 1 ∧ cwA chainC2w k ≤ 0 ∧
      what chainC2w 0 0 1 = some (What.leaf k) ∧
      bestLeafVal chainC2w 0 0 1 = ((sumFw chainC2w 0 k : ℕ) : ℕ∞) +
        opt chainC2w (0 - cwA chainC2w k) k 1 + opt chainC2w 0 0 (k - 1) :=
  c2_tie_leaf chainC2w 0 0 1 (by decide) (by decide)
    ⟨1, by decide, by decide, by decide⟩ (by decide)

/-- C2 counterexample: at the cell `(m, i, j) = (0, 0, 1)` of `chainC2x` the
hypotheses of the claim as frozen hold — `j > i`, the leaf boundary `k = 1`
satisfies `m ≥ x_size[1]`, and the best leaf total (`∞`) is `≤` the chain
total (`∞`, and Python `inf <= inf` is true) — yet `m = 0` is below the
feasibility floor `mmin = 5`, so the solver sets `opt[0][0][1] = ∞` and
records no decision at all in `what[0][0][1]`: the claim as stated is false. -/
theorem c2_counterexample :
    (0 : ℕ) < 1 ∧ cwA chainC2x 1 ≤ 0 ∧
      bestLeafVal chainC2x 0 0 1 ≤ chainValC chainC2x 0 0 1 ∧
      mminD chainC2x 0 1 = 5 ∧
      what chainC2x 0 0 1 = none ∧ opt chainC2x 0 0 1 = ⊤ := by decide

/-- C3: for every chain, every pair of range indices `(i, j)` with
`0 ≤ i ≤ j ≤ L`, and all memory values `m1 ≤ m2`, the table produced by
`_compute_table` satisfies `opt[m2][i][j] ≤ opt[m1][i][j]` (with `⊤` as
`+∞`): the minimal total time is non-increasing as available memory
increases.  (Each table cell is independent of `mmax`, which only bounds
which cells the Python table stores, so the bound `m2 ≤ mmax` of the claim
imposes nothing on the cell values.) -/
theorem c3_opt_monotone (c : Chain) (i j m1 m2 : ℕ) (hij : i ≤ j)
    (hj : j ≤ c.length) (hm : m1 ≤ m2) : opt c m2 i j ≤ opt c m1 i j :=
  opt_mono c i j hm

/-- C3 witness at a concrete chain and cell. -/
theorem c3_opt_monotone_witness : opt chainC3w 1 0 1 ≤ opt chainC3w 0 0 1 :=
  c3_opt_monotone chainC3w 0 1 0 1 (by decide) (by decide) (by decide)

/-- C5: in the recurrence for a cell `(m, i, j)` with `j > i` and `m` at or
above the feasibility floor, the cell value is the minimum of the best leaf
value and the chain value; the leaf-option value for each candidate boundary
`k ∈ (i, j]` with `m ≥ x_size[k]` equals
`sum(fwd_time[i..k-1]) + opt[m - x_size[k]][k][j] + opt[m][i][k-1]`, the best
leaf value is a lower bound of all these candidate totals, and (when some
candidate exists) it is attained at one of the candidates: the solver picks a
`k` minimising the total. -/
theorem c5_leaf_min (c : Chain) (m i j : ℕ) (hij : i < j) (hm : mminD c i j ≤ m) :
    opt c m i j = min (bestLeafVal c m i j) (chainValC c m i j) ∧
    (∀ k, i < k → k ≤ j → cwA c k ≤ m →
      bestLeafVal c m i j ≤ ((sumFw c i k : ℕ) : ℕ∞) +
        opt c (m - cwA c k) k j + opt c m i (k - 1)) ∧
    ((∃ k, i < k ∧ k ≤ j ∧ cwA c k ≤ m) →
      ∃ k, i < k ∧ k ≤ j ∧ cwA c k ≤ m ∧
        bestLeafVal c m i j = ((sumFw c i k : ℕ) : ℕ∞) +
          opt c (m - cwA c k) k j + opt c m i (k - 1)) := by
  refine ⟨opt_rec_min c m i j hij hm, ?_, ?_⟩
  · intro k hk1 hk2 hk3
    exact blVal_le_of_mem (leafListC_mem_intro c m i j k hij (by omega) hk2 hk3)
  · rintro ⟨k0, hk01, hk02, hk03⟩
    have hmem0 := leafListC_mem_intro c m i j k0 hij (by omega) hk02 hk03
    cases hbl : bestLeaf (leafListC c m i j) with
    | none =>
      exfalso
      rw [bestLeaf_eq_none.mp hbl] at hmem0
      exact List.not_mem_nil _ hmem0
    | some kv =>
      obtain ⟨⟨hm1, hm2, hm3⟩, hvform⟩ := leafListC_mem (bestLeaf_mem hbl)
      refine ⟨kv.1, by omega, by omega, hm3, ?_⟩
      unfold bestLeafVal
      rw [blVal_some hbl, hvform]

/-- C5 witness at a concrete chain and cell. -/
theorem c5_leaf_min_witness :
    bestLeafVal chainC5w 0 0 1 ≤ ((sumFw chainC5w 0 1 : ℕ) : ℕ∞) +
      opt chainC5w (0 - cwA chainC5w 1) 1 1 + opt chainC5w 0 0 0 :=
  (c5_leaf_min chainC5w 0 0 1 (by decide) (by decide)).2.1 1
    (by decide) (by decide) (by decide)

/-- C6: for every cell `(m, i, j)` with `j - i ≥ 1`, the solver's feasibility
floor covers `x_size[j+1] + x_size[i+1] + tmp_fwd[i]` and, when `j > i + 1`,
also `x_size[j+1]` plus the maximum over interior stages `k ∈ (i, j)` of
`x_size[k] + x_size[k+1] + tmp_fwd[k]`: below either quantity the cell is set
to `+∞` with no decision recorded; at or above both, the cell is processed
and a decision is recorded.  (The source adds `x_size[j+1]` on top of the
interior maximum, so the floor in particular covers the claim's interior
maximum itself.) -/
theorem c6_feasibility_floor (c : Chain) (m i j : ℕ) (hij : i < j) :
    ((m < cwA c (j + 1) + cwA c (i + 1) + fwdTmpA c i ∨
        (i + 1 < j ∧ m < cwA c (j + 1) + interiorMax c i j)) →
      opt c m i j = ⊤ ∧ what c m i j = none) ∧
    (cwA c (j + 1) + cwA c (i + 1) + fwdTmpA c i ≤ m →
      (i + 1 < j → cwA c (j + 1) + interiorMax c i j ≤ m) →
      ∃ w, what c m i j = some w) := by
  constructor
  · intro h
    apply opt_what_infeasible c m i j hij
    unfold mminD
    by_cases hd : i + 1 < j
    · rw [if_pos hd]
      rcases h with h | ⟨_, h⟩
      · exact lt_max_iff.mpr (Or.inl h)
      · exact lt_max_iff.mpr (Or.inr h)
    · rw [if_neg hd]
      rcases h with h | ⟨hd', _⟩
      · exact h
      · exact absurd hd' hd
  · intro h1 h2
    apply what_isSome c m i j hij
    unfold mminD
    by_cases hd : i + 1 < j
    · rw [if_pos hd]
      exact max_le h1 (h2 hd)
    · rw [if_neg hd]
      exact h1

/-- C6 witness: a cell below its floor is infeasible and undecided. -/
theorem c6_feasibility_floor_witness :
    opt chainC6w 0 0 1 = ⊤ ∧ what chainC6w 0 0 1 = none :=
  (c6_feasibility_floor chainC6w 0 0 1 (by decide)).1 (Or.inl (by decide))

/-- C1 (amended): whenever `_rec` returns a sequence, its total time — summing
`fwd_time[i]` for each `ForwardEnable(i)`/`ForwardCheck(i)`/`ForwardNograd(i)`,
`bwd_time[i]` for each `Backward(i)`, and the terminal costs
`fwd_time[L] + bwd_time[L]` for `Loss` — equals `opt[cmem][lmin][lmax]`
exactly.  (The claim's unconditional form fails: a request with `cmem > 0`
and finite `opt[cmem][lmin][lmax]` can still raise, because a recursive
sub-request can reach memory `0`; see the counterexample.) -/
theorem c1_roundtrip (c : Chain) (f lmin lmax cmem : ℕ) (s : List Op)
    (h : recSeq c f lmin lmax cmem = .ok s) :
    ((seqCost c s : ℕ) : ℕ∞) = opt c cmem lmin lmax :=
  recSeq_cost c f lmin lmax cmem s h

/-- C1 witness: a successful reconstruction whose summed cost equals the
table value. -/
theorem c1_roundtrip_witness :
    ((seqCost chainC1w [Op.ForwardEnable 0, Op.Loss, Op.Backward 0] : ℕ) : ℕ∞) =
      opt chainC1w 1 0 1 :=
  c1_roundtrip chainC1w 2 0 1 1 [Op.ForwardEnable 0, Op.Loss, Op.Backward 0]
    (by decide)

/-- C1 counterexample: for `chainC1x` the request `(lmin, lmax, cmem) =
(0, 1, 1)` satisfies the claim's hypotheses — `cmem > 0` and
`opt[1][0][1] = 3`, finite — yet `_rec` raises (the recorded chain decision
recurses with memory `1 - cbweight[1] = 0`), so no sequence with the claimed
total time is returned. -/
theorem c1_counterexample :
    0 < 1 ∧ opt chainC1x 1 0 1 = 3 ∧
      recSeq chainC1x 5 0 1 1 = .error (.negMem 0) := by decide

/-- C4 (amended): for a one-stage chain with `fwd_time = [5]`,
`bwd_time = [3, 0]` whose sizes are small enough that every feasibility floor
is met at memory `mmax` (and `mmax` strictly exceeds `xbar_size[1]`, so the
recursive call keeps positive memory), the solver yields
`opt[mmax][0][1] = 8` and the reconstructed sequence for
`(lmin, lmax, cmem) = (0, 1, mmax)` is exactly
`[ForwardEnable(0), Loss, Backward(0)]`, with total cost 8.  (The claim's
sequence `[ForwardEnable(0), Backward(0), Loss]` has the wrong operation
order: the source emits the recursive sub-sequence — here `[Loss]` — between
`ForwardEnable(0)` and `Backward(0)`.) -/
theorem c4_base_case (c : Chain) (mmax : ℕ) (hf : c.fweight = [5])
    (hb : c.bweight = [3, 0])
    (h0 : limitD c 0 ≤ mmax)
    (h1 : cbwA c 1 + limitD c 1 ≤ mmax)
    (h2 : mminD c 0 1 ≤ mmax)
    (h3 : cbwA c 1 < mmax) :
    opt c mmax 0 1 = (8 : ℕ∞) ∧
      recSeq c 2 0 1 mmax = .ok [.ForwardEnable 0, .Loss, .Backward 0] ∧
      seqCost c [.ForwardEnable 0, .Loss, .Backward 0] = 8 := by
  have hlen : c.length = 1 := by
    unfold Chain.length
    rw [hf]
    rfl
  have hfw0 : fwA c 0 = 5 := by
    unfold fwA
    rw [hf]
    rfl
  have hfw1 : fwA c 1 = 0 := by
    unfold fwA
    rw [hf]
    rfl
  have hbw0 : bwA c 0 = 3 := by
    unfold bwA
    rw [hb]
    rfl
  have hbw1 : bwA c 1 = 0 := by
    unfold bwA
    rw [hb]
    rfl
  have hb00 : opt c mmax 0 0 = ((8 : ℕ) : ℕ∞) := by
    rw [opt_base c mmax 0 0 (le_refl _), if_pos h0, hfw0, hbw0]
  have hb11m : opt c (mmax - cbwA c 1) 1 1 = ((0 : ℕ) : ℕ∞) := by
    rw [opt_base c (mmax - cbwA c 1) 1 1 (le_refl _),
      if_pos (show limitD c 1 ≤ mmax - cbwA c 1 by omega), hfw1, hbw1]
  have hcv : chainValC c mmax 0 1 = ((8 : ℕ) : ℕ∞) := by
    unfold chainValC chainValWith
    rw [if_pos (show cbwA c 1 ≤ mmax by omega), hb00, hb11m]
    push_cast
    ring
  have hgt : ∀ kv ∈ leafListC c mmax 0 1, ¬kv.2 ≤ chainValC c mmax 0 1 := by
    intro kv hkv hle
    obtain ⟨⟨hq1, hq2, hq3⟩, hvform⟩ := leafListC_mem hkv
    have hk1 : kv.1 = 1 := by omega
    rw [hcv] at hle
    rw [hvform, hk1] at hle
    have hsf : sumFw c 0 1 = 5 := by
      unfold sumFw
      simp [hfw0]
    rw [hsf, hb00] at hle
    have h13 : ((13 : ℕ) : ℕ∞) ≤ ((5 : ℕ) : ℕ∞) +
        opt c (mmax - cwA c 1) 1 1 + ((8 : ℕ) : ℕ∞) := by
      calc ((13 : ℕ) : ℕ∞) = ((5 : ℕ) : ℕ∞) + 0 + ((8 : ℕ) : ℕ∞) := by
            push_cast
            ring
      _ ≤ _ := add_le_add (add_le_add (le_refl _) (zero_le _)) (le_refl _)
    have hc : ((13 : ℕ) : ℕ∞) ≤ ((8 : ℕ) : ℕ∞) := le_trans h13 hle
    exact absurd hc (by decide)
  have hwc : what c mmax 0 1 = some What.chain := by
    rw [what_rec_eq c mmax 0 1 (by omega) h2]
    cases hbl : bestLeaf (leafListC c mmax 0 1) with
    | none => rw [cellWith_none hbl]
    | some kv => rw [cellWith_some_gt hbl (hgt kv (bestLeaf_mem hbl))]
  have hopt : opt c mmax 0 1 = (8 : ℕ∞) := by
    rw [opt_of_what_chain c mmax 0 1 (by omega) hwc, hcv]
    push_cast
    ring
  refine ⟨hopt, ?_, ?_⟩
  · simp only [recSeq, hwc]
    rw [if_neg (show ¬mmax = 0 by omega),
      if_neg (show ¬opt c mmax 0 1 = ⊤ by rw [hopt]; simp),
      if_neg (show ¬(0 : ℕ) = 1 by decide),
      if_neg (show ¬mmax - cbwA c 1 = 0 by omega),
      if_neg (show ¬opt c (mmax - cbwA c 1) 1 1 = ⊤ by rw [hb11m]; simp),
      hlen]
    norm_num
  · simp [seqCost, opCost, hlen, hfw0, hfw1, hbw0, hbw1]

/-- C4 witness at the all-zero-size instance with `mmax = 1`. -/
theorem c4_base_case_witness :
    opt chainC4 1 0 1 = (8 : ℕ∞) ∧
      recSeq chainC4 2 0 1 1 = .ok [.ForwardEnable 0, .Loss, .Backward 0] ∧
      seqCost chainC4 [.ForwardEnable 0, .Loss, .Backward 0] = 8 :=
  c4_base_case chainC4 1 rfl rfl (by decide) (by decide) (by decide) (by decide)

/-- C4 counterexample: on the claim's one-stage chain the solver does yield
`opt[mmax][0][1] = 8`, but the reconstructed sequence is
`[ForwardEnable(0), Loss, Backward(0)]`, not the claimed
`[ForwardEnable(0), Backward(0), Loss]`. -/
theorem c4_counterexample :
    opt chainC4 1 0 1 = 8 ∧
      recSeq chainC4 2 0 1 1 = .ok [Op.ForwardEnable 0, Op.Loss, Op.Backward 0] ∧
      recSeq chainC4 2 0 1 1 ≠
        .ok [Op.ForwardEnable 0, Op.Backward 0, Op.Loss] := by decide

/-- C7 (amended): at entry, `_rec` raises on `cmem ≤ 0` with an error naming
the memory value (only — the range is not in that message), and on
`opt[cmem][lmin][lmax] = +∞` (with `cmem > 0`) with an error naming the
requested range and the memory value; in both cases it returns no sequence.
(The claim's converse fails: a request with `cmem > 0` and finite `opt` can
still raise from a recursive sub-request; see the counterexample.) -/
theorem c7_errors (c : Chain) (f lmin lmax cmem : ℕ) :
    (cmem = 0 → recSeq c (f + 1) lmin lmax cmem =
        .error (.negMem cmem)) ∧
    (0 < cmem → opt c cmem lmin lmax = ⊤ →
      recSeq c (f + 1) lmin lmax cmem = .error (.infeasible lmin lmax cmem)) := by
  constructor
  · intro h0
    simp only [recSeq, if_pos h0]
  · intro h0 hinf
    simp only [recSeq]
    rw [if_neg (by omega), if_pos hinf]

/-- C7 witness: both entry errors at concrete requests on `chainC7w`
(whose cell `(1, 0, 1)` is infeasible). -/
theorem c7_errors_witness :
    recSeq chainC7w 3 0 1 0 = .error (.negMem 0) ∧
      recSeq chainC7w 3 0 1 1 = .error (.infeasible 0 1 1) :=
  ⟨(c7_errors chainC7w 2 0 1 0).1 rfl,
   (c7_errors chainC7w 2 0 1 1).2 (by decide) (by decide)⟩

/-- C7 counterexample: for `chainC7x` the request `(0, 1, 2)` is feasible
(`cmem = 2 > 0`, `opt[2][0][1] = 4`), yet `_rec` raises — via its recursive
chain-branch call at memory `2 - cbweight[1] = 0` — with the memory-only
error, so the claim's "on feasible requests no such error is raised" is
false (and that error names no range). -/
theorem c7_counterexample :
    0 < 2 ∧ opt chainC7x 2 0 1 = 4 ∧
      recSeq chainC7x 5 0 1 2 = .error (.negMem 0) := by decide

/-- C8 (amended): the entry point performs no validation of its own; what the
arithmetic does is: `mem_slots = 0` fails with a division-by-zero computing
`mem_unit`, before anything is discretized; a `mem_limit` making
`mem_unit = 0` (in particular `mem_limit = 0`) fails with a division-by-zero
inside `_discretize`, still before any DP table is built.  (A strictly
negative `mem_limit` whose `mem_unit` is nonzero is not rejected at all; see
the counterexample.) -/
theorem c8_zero_rejection (mem_limit mem_slots : ℤ) (eps : ℚ) (raw : RawSizes) :
    (mem_slots = 0 →
      rotorPrelude mem_limit mem_slots eps raw = .error .zeroDivFloorDiv) ∧
    (mem_limit = 0 → mem_slots ≠ 0 → raw.xbar ≠ [] →
      rotorPrelude mem_limit mem_slots eps raw = .error .zeroDivDiscretize) := by
  constructor
  · intro h
    subst h
    unfold rotorPrelude floorDivQ
    rw [if_pos (by norm_num)]
  · intro h0 hs hx
    subst h0
    unfold rotorPrelude floorDivQ
    rw [if_neg (show ¬((mem_slots : ℚ) = 0) by exact_mod_cast hs)]
    have hmu : (⌊((0 : ℤ) : ℚ) * (1 - eps) / (mem_slots : ℚ)⌋ : ℤ) = 0 := by
      norm_num
    rw [hmu]
    cases hxb : raw.xbar with
    | nil => exact absurd hxb hx
    | cons v t =>
      have hd : discretizeE (0 : ℚ) (v :: t) = .error .zeroDivDiscretize := by
        simp [discretizeE]
      simp [hd]

/-- C8 witness: a zero slot count and a zero memory budget both fail before
the table stage. -/
theorem c8_zero_rejection_witness :
    rotorPrelude 7 0 (1 / 50) ⟨[4], [4], [0], [0]⟩ = .error .zeroDivFloorDiv ∧
      rotorPrelude 0 500 (1 / 50) ⟨[4], [4], [0], [0]⟩ =
        .error .zeroDivDiscretize :=
  ⟨(c8_zero_rejection 7 0 (1 / 50) ⟨[4], [4], [0], [0]⟩).1 rfl,
   (c8_zero_rejection 0 500 (1 / 50) ⟨[4], [4], [0], [0]⟩).2 rfl
     (by decide) (by simp)⟩

/-- C8 counterexample: `mem_limit = -1 < 0` (with `mem_slots = 1`, `eps = 0`)
is not rejected: `mem_unit = floor(-1 * 1 / 1) = -1 ≠ 0`, every `_discretize`
call succeeds (producing negative sizes), and the pipeline reaches the
DP-table stage with an `.ok` chain — no configuration error is raised. -/
theorem c8_counterexample :
    (-1 : ℤ) < 0 ∧
      rotorPrelude (-1) 1 0 ⟨[4], [4], [0], [0]⟩ =
        .ok ([-4], [-4], [0], [0]) := by
  have hc4 : (⌈(4 : ℚ) / (-1 : ℚ)⌉ : ℤ) = -4 := by
    rw [Int.ceil_eq_iff]
    norm_num
  have hc0 : (⌈(0 : ℚ) / (-1 : ℚ)⌉ : ℤ) = 0 := by
    rw [Int.ceil_eq_iff]
    norm_num
  have h4 : discretizeE (-1 : ℚ) [4] = .ok [-4] := by
    simp [discretizeE, hc4]
  have h0 : discretizeE (-1 : ℚ) [0] = .ok [0] := by
    simp [discretizeE, hc0]
  refine ⟨by norm_num, ?_⟩
  unfold rotorPrelude floorDivQ
  norm_num [h4, h0]

/-- C9: for every positive memory unit and every non-negative raw value `v`,
the discretized value `ceil(v / mem_unit)` produced by `_discretize` never
under-represents `v`: multiplying it back by `mem_unit` yields at least `v`. -/
theorem c9_discretize_safe (mem_unit v : ℚ) (hu : 0 < mem_unit) (hv : 0 ≤ v) :
    ∀ d ∈ discretize mem_unit [v], v ≤ (d : ℚ) * mem_unit := by
  intro d hd
  simp only [discretize, List.map_cons, List.map_nil] at hd
  rcases List.mem_singleton.mp hd with rfl
  have h1 : v / mem_unit ≤ ((⌈v / mem_unit⌉ : ℤ) : ℚ) := Int.le_ceil _
  calc v = v / mem_unit * mem_unit := by field_simp
  _ ≤ ((⌈v / mem_unit⌉ : ℤ) : ℚ) * mem_unit :=
    mul_le_mul_of_nonneg_right h1 (le_of_lt hu)

/-- C9 witness: `v = 3`, `mem_unit = 2` gives `ceil(3/2) = 2` and
`2 * 2 = 4 ≥ 3`. -/
theorem c9_discretize_safe_witness : (3 : ℚ) ≤ ((2 : ℤ) : ℚ) * 2 := by
  have hc : (⌈(3 : ℚ) / 2⌉ : ℤ) = 2 := by
    rw [Int.ceil_eq_iff]
    norm_num
  have hm : (2 : ℤ) ∈ discretize 2 [3] := by
    simp only [discretize, List.map_cons, List.map_nil]
    rw [hc]
    exact List.mem_singleton.mpr rfl
  exact c9_discretize_safe 2 3 (by norm_num) (by norm_num) 2 hm

end RotorCkpt

namespace VarMean

/-- C10: executing the `torch.var_mean` branch of
`build_strategies_and_cost` — for a node whose first predecessor carries at
least one strategy, so the loop body runs — from any environment in which
`new_input_sharding_spec` is unbound (and the function's own prior locals
`node` and `strategies_vector` are bound) raises
`UnboundLocalError: new_input_sharding_spec` (an instance of `NameError`) at
the `name = f-string` statement, before any assignment to that variable: the
branch can never complete normally. -/
theorem c10_varmean_unbound (env : Env)
    (hnode : env "node" = true)
    (hsv : env "strategies_vector" = true)
    (hnew : env "new_input_sharding_spec" = false) :
    runStmts env varMeanBranchStmts =
      .error (.unboundLocal "new_input_sharding_spec") := by
  simp [varMeanBranchStmts, runStmts, execStmt, List.find?, hnode, hsv, hnew]

/-- Supporting fact for C10's hypothesis: `new_input_sharding_spec` is not
among the locals `build_strategies_and_cost` can have bound when control
reaches the `torch.var_mean` branch (it is assigned only inside that branch,
after the failing read). -/
theorem newInputShardingSpec_not_reachable :
    "new_input_sharding_spec" ∉ reachableLocals := by decide

/-- C10 witness: the branch raises from the concrete entry environment that
binds exactly the reachable locals. -/
theorem c10_varmean_unbound_witness :
    runStmts reachableEnv varMeanBranchStmts =
      .error (.unboundLocal "new_input_sharding_spec") :=
  c10_varmean_unbound reachableEnv (by decide) (by decide) (by decide)

end VarMean
